import Mathlib

/-!
Verification development for the ClaimFlow streaming front-end.

The embedding models, faithfully to the TypeScript source:
* the streaming `TextDecoder` (WHATWG UTF-8 decode state machine, per byte,
  `stream: true` semantics: an incomplete trailing sequence is carried in the
  state and, matching the source, never flushed at stream end);
* `String.prototype.split("\n")`, `String.prototype.trim`, `JSON.parse`;
* `processStream` from `useClaimProcessor` (line-framed decoder + aggregator);
* `processClaim` / `processFile` / `reset` (orchestrator, `isProcessing` writes);
* `handleSend` from `ClaimChatBox` (raw-text chat accumulator).

Strings are modelled as `List Char` (JS strings are character sequences) and
byte chunks as `List Nat`.
-/

/-- The WHATWG / ECMAScript white-space set used by `String.prototype.trim`. -/
def jsWhitespace (c : Char) : Bool :=
  let n := c.toNat
  n = 9 || n = 10 || n = 11 || n = 12 || n = 13 || n = 32 ||
  n = 0xA0 || n = 0x1680 || (0x2000 ≤ n && n ≤ 0x200A) ||
  n = 0x2028 || n = 0x2029 || n = 0x202F || n = 0x205F || n = 0x3000 || n = 0xFEFF

/-- JS `s.trim()`: drop JS white-space from both ends. -/
def trimChars (cs : List Char) : List Char :=
  ((cs.dropWhile jsWhitespace).reverse.dropWhile jsWhitespace).reverse

/-- JS `s.split("\n")`: split on every newline, keeping empty segments.
Never returns the empty list. -/
def splitNl : List Char → List (List Char)
  | [] => [[]]
  | c :: cs =>
    if c = '\n' then [] :: splitNl cs
    else
      match splitNl cs with
      | p :: ps => (c :: p) :: ps
      | [] => [[c]]

/-- State of the streaming UTF-8 decoder (WHATWG "UTF-8 decoder" variables). -/
structure DecState where
  codepoint : Nat
  bytesSeen : Nat
  bytesNeeded : Nat
  lower : Nat
  upper : Nat
deriving DecidableEq

/-- Ground state of the decoder. -/
def dec0 : DecState := ⟨0, 0, 0, 0x80, 0xBF⟩

/-- Unicode replacement character U+FFFD. -/
def replChar : Char := Char.ofNat 0xFFFD

/-- Feed one byte to the decoder in ground state (no pending sequence). -/
def pushGround (b : Nat) : DecState × List Char :=
  if b ≤ 0x7F then (dec0, [Char.ofNat b])
  else if 0xC2 ≤ b && b ≤ 0xDF then
    ({ codepoint := b % 32, bytesSeen := 0, bytesNeeded := 1,
       lower := 0x80, upper := 0xBF }, [])
  else if 0xE0 ≤ b && b ≤ 0xEF then
    ({ codepoint := b % 16, bytesSeen := 0, bytesNeeded := 2,
       lower := if b = 0xE0 then 0xA0 else 0x80,
       upper := if b = 0xED then 0x9F else 0xBF }, [])
  else if 0xF0 ≤ b && b ≤ 0xF4 then
    ({ codepoint := b % 8, bytesSeen := 0, bytesNeeded := 3,
       lower := if b = 0xF0 then 0x90 else 0x80,
       upper := if b = 0xF4 then 0x8F else 0xBF }, [])
  else (dec0, [replChar])

/-- Feed one byte to the decoder (WHATWG UTF-8 decode step).  On a byte that
cannot continue a pending sequence the byte is restored to the stream and
reprocessed from ground state, after emitting U+FFFD. -/
def pushByte (st : DecState) (b : Nat) : DecState × List Char :=
  if st.bytesNeeded = 0 then pushGround b
  else if st.lower ≤ b && b ≤ st.upper then
    let cp := st.codepoint * 64 + (b % 64)
    if st.bytesSeen + 1 = st.bytesNeeded then (dec0, [Char.ofNat cp])
    else ({ codepoint := cp, bytesSeen := st.bytesSeen + 1,
            bytesNeeded := st.bytesNeeded, lower := 0x80, upper := 0xBF }, [])
  else
    let g := pushGround b
    (g.1, replChar :: g.2)

/-- Streaming `decoder.decode(bytes, { stream: true })`: fold the byte chunk through the
state machine, collecting the emitted characters. -/
def decodeChunk (st : DecState) : List Nat → DecState × List Char
  | [] => (st, [])
  | b :: bs =>
    let p := pushByte st b
    let q := decodeChunk p.1 bs
    (q.1, p.2 ++ q.2)

/-- UTF-8 encoding of one character (used to build concrete byte payloads). -/
def encodeChar (c : Char) : List Nat :=
  let n := c.toNat
  if n < 0x80 then [n]
  else if n < 0x800 then [0xC0 + n / 64, 0x80 + n % 64]
  else if n < 0x10000 then
    [0xE0 + n / 4096, 0x80 + (n / 64) % 64, 0x80 + n % 64]
  else
    [0xF0 + n / 0x40000, 0x80 + (n / 4096) % 64, 0x80 + (n / 64) % 64, 0x80 + n % 64]

/-- UTF-8 encoding of a character sequence. -/
def utf8Encode (cs : List Char) : List Nat := (cs.map encodeChar).flatten

/-! ## JSON values and `JSON.parse`

`JSON.parse` is modelled as an executable parser over `List Char`.  Numbers
keep their source lexeme (the claims never depend on numeric values, and this
avoids floating point).  `\uXXXX` escapes follow UTF-16: a surrogate pair is
combined into one scalar; a lone surrogate (not representable as a Lean
`Char`) becomes U+FFFD.  Duplicate object keys are kept in order; property
access takes the last occurrence, as in JavaScript. -/

inductive Json where
  | null
  | bool (b : Bool)
  | num (lex : List Char)
  | str (s : List Char)
  | arr (elems : List Json)
  | obj (fields : List (List Char × Json))

/-- The character `{`. -/
def lbrace : Char := Char.ofNat 123

/-- The character `}`. -/
def rbrace : Char := Char.ofNat 125

def isDigitCh (c : Char) : Bool := '0' ≤ c && c ≤ '9'

def hexDigit? (c : Char) : Option Nat :=
  if '0' ≤ c && c ≤ '9' then some (c.toNat - 48)
  else if 'a' ≤ c && c ≤ 'f' then some (c.toNat - 87)
  else if 'A' ≤ c && c ≤ 'F' then some (c.toNat - 55)
  else none

/-- Single-character escapes of JSON strings. -/
def escChar? (c : Char) : Option Char :=
  if c = '"' then some '"'
  else if c = '\\' then some '\\'
  else if c = '/' then some '/'
  else if c = 'b' then some (Char.ofNat 8)
  else if c = 'f' then some (Char.ofNat 12)
  else if c = 'n' then some '\n'
  else if c = 'r' then some '\r'
  else if c = 't' then some '\t'
  else none

def parseHex4 : List Char → Option (Nat × List Char)
  | c1 :: c2 :: c3 :: c4 :: rest => do
    let a ← hexDigit? c1
    let b ← hexDigit? c2
    let c ← hexDigit? c3
    let d ← hexDigit? c4
    pure (a * 4096 + b * 256 + c * 16 + d, rest)
  | _ => none

/-- Parse the body of a JSON string after the opening quote; returns the
decoded content and the input remaining after the closing quote. -/
def parseStringRest : Nat → List Char → Option (List Char × List Char)
  | 0, _ => none
  | _, [] => none
  | fuel + 1, c :: cs =>
    if c = '"' then some ([], cs)
    else if c = '\\' then
      match cs with
      | [] => none
      | e :: cs1 =>
        if e = 'u' then
          match parseHex4 cs1 with
          | none => none
          | some (code, cs2) =>
            if 0xD800 ≤ code ∧ code ≤ 0xDBFF then
              match cs2 with
              | b1 :: b2 :: cs3 =>
                if b1 = '\\' ∧ b2 = 'u' then
                  match parseHex4 cs3 with
                  | some (code2, cs4) =>
                    if 0xDC00 ≤ code2 ∧ code2 ≤ 0xDFFF then
                      (parseStringRest fuel cs4).map fun p =>
                        (Char.ofNat (0x10000 + (code - 0xD800) * 1024 + (code2 - 0xDC00)) :: p.1, p.2)
                    else
                      (parseStringRest fuel cs2).map fun p => (replChar :: p.1, p.2)
                  | none => (parseStringRest fuel cs2).map fun p => (replChar :: p.1, p.2)
                else (parseStringRest fuel cs2).map fun p => (replChar :: p.1, p.2)
              | _ => (parseStringRest fuel cs2).map fun p => (replChar :: p.1, p.2)
            else if 0xDC00 ≤ code ∧ code ≤ 0xDFFF then
              (parseStringRest fuel cs2).map fun p => (replChar :: p.1, p.2)
            else
              (parseStringRest fuel cs2).map fun p => (Char.ofNat code :: p.1, p.2)
        else
          match escChar? e with
          | some ec => (parseStringRest fuel cs1).map fun p => (ec :: p.1, p.2)
          | none => none
    else if c.toNat < 0x20 then none
    else (parseStringRest fuel cs).map fun p => (c :: p.1, p.2)

def parseIntPart : List Char → Option (List Char × List Char)
  | [] => none
  | c :: r =>
    if c = '0' then some ([c], r)
    else if isDigitCh c then some (c :: r.takeWhile isDigitCh, r.dropWhile isDigitCh)
    else none

def parseFracPart (cs : List Char) : Option (List Char × List Char) :=
  match cs with
  | c :: r =>
    if c = '.' then
      match r.takeWhile isDigitCh with
      | [] => none
      | ds => some (c :: ds, r.dropWhile isDigitCh)
    else some ([], cs)
  | [] => some ([], [])

def parseExpPart (cs : List Char) : Option (List Char × List Char) :=
  match cs with
  | c :: r =>
    if c = 'e' || c = 'E' then
      let sr : List Char × List Char :=
        match r with
        | s :: r' => if s = '+' || s = '-' then ([s], r') else ([], r)
        | [] => ([], r)
      match sr.2.takeWhile isDigitCh with
      | [] => none
      | ds => some (c :: (sr.1 ++ ds), sr.2.dropWhile isDigitCh)
    else some ([], cs)
  | [] => some ([], [])

/-- Parse a JSON number, returning its lexeme. -/
def parseNumber (cs0 : List Char) : Option (List Char × List Char) := do
  let neg : List Char × List Char :=
    match cs0 with
    | c :: r => if c = '-' then ([c], r) else ([], cs0)
    | [] => ([], cs0)
  let ip ← parseIntPart neg.2
  let fp ← parseFracPart ip.2
  let ep ← parseExpPart fp.2
  pure (neg.1 ++ ip.1 ++ fp.1 ++ ep.1, ep.2)

/-- JSON inter-token white-space (space, tab, newline, carriage return). -/
def skipWsL (cs : List Char) : List Char :=
  cs.dropWhile fun c => c = ' ' || c = '\t' || c = '\n' || c = '\r'

mutual

def parseValue : Nat → List Char → Option (Json × List Char)
  | 0, _ => none
  | fuel + 1, cs =>
    match cs with
    | [] => none
    | c :: rest =>
      if c = '"' then (parseStringRest fuel rest).map fun p => (Json.str p.1, p.2)
      else if c = lbrace then parseObjFirst fuel rest
      else if c = '[' then parseArrFirst fuel rest
      else if c = 't' then
        match rest with
        | 'r' :: 'u' :: 'e' :: r => some (Json.bool true, r)
        | _ => none
      else if c = 'f' then
        match rest with
        | 'a' :: 'l' :: 's' :: 'e' :: r => some (Json.bool false, r)
        | _ => none
      else if c = 'n' then
        match rest with
        | 'u' :: 'l' :: 'l' :: r => some (Json.null, r)
        | _ => none
      else if c = '-' || isDigitCh c then
        (parseNumber cs).map fun p => (Json.num p.1, p.2)
      else none

def parseArrFirst : Nat → List Char → Option (Json × List Char)
  | 0, _ => none
  | fuel + 1, cs =>
    match skipWsL cs with
    | [] => none
    | c :: r =>
      if c = ']' then some (Json.arr [], r)
      else do
        let p ← parseValue fuel (c :: r)
        parseArrRest fuel [p.1] p.2

def parseArrRest : Nat → List Json → List Char → Option (Json × List Char)
  | 0, _, _ => none
  | fuel + 1, acc, cs =>
    match skipWsL cs with
    | [] => none
    | c :: r =>
      if c = ',' then do
        let p ← parseValue fuel (skipWsL r)
        parseArrRest fuel (acc ++ [p.1]) p.2
      else if c = ']' then some (Json.arr acc, r)
      else none

def parseObjFirst : Nat → List Char → Option (Json × List Char)
  | 0, _ => none
  | fuel + 1, cs =>
    match skipWsL cs with
    | [] => none
    | c :: r =>
      if c = rbrace then some (Json.obj [], r)
      else if c = '"' then do
        let k ← parseStringRest fuel r
        parseObjPair fuel [] k.1 k.2
      else none

def parseObjPair : Nat → List (List Char × Json) → List Char → List Char →
    Option (Json × List Char)
  | 0, _, _, _ => none
  | fuel + 1, acc, k, cs =>
    match skipWsL cs with
    | [] => none
    | c :: r =>
      if c = ':' then do
        let p ← parseValue fuel (skipWsL r)
        parseObjRest fuel (acc ++ [(k, p.1)]) p.2
      else none

def parseObjRest : Nat → List (List Char × Json) → List Char →
    Option (Json × List Char)
  | 0, _, _ => none
  | fuel + 1, acc, cs =>
    match skipWsL cs with
    | [] => none
    | c :: r =>
      if c = ',' then
        match skipWsL r with
        | '"' :: r1 => do
          let k ← parseStringRest fuel r1
          parseObjPair fuel acc k.1 k.2
        | _ => none
      else if c = rbrace then some (Json.obj acc, r)
      else none

end

/-- Model of `JSON.parse`: a complete value, allowing surrounding JSON white-space. -/
def Json.parse (cs : List Char) : Option Json :=
  match parseValue (4 * cs.length + 16) (skipWsL cs) with
  | some (v, rest) => if skipWsL rest = [] then some v else none
  | none => none

/-! ## The claim-progress aggregator (from `useClaimProcessor.processStream`)

`results` holds every successfully parsed record (`setResults`), and
`completedNodes` the deduplicated `node` values (`setCompletedNodes`).
`parsed.node` on a value without a `node` property is `undefined`, modelled
as `none`.  `Array.prototype.includes` uses SameValueZero; each parsed value
is a fresh allocation, so object/array-valued nodes never compare equal —
`jsSameValueZero` compares primitives structurally and objects/arrays as
always-distinct. -/

/-- Access `parsed.node`: property access; JavaScript keeps the last duplicate key. -/
def nodeField (j : Json) : Option Json :=
  match j with
  | Json.obj fs => ((fs.filter fun f => f.1 == ('n' :: 'o' :: 'd' :: 'e' :: [])).getLast?).map (·.2)
  | _ => none

/-- SameValueZero between values originating from distinct `JSON.parse` calls:
primitives compare by value, objects and arrays by (always distinct) reference. -/
def jsSameValueZero : Option Json → Option Json → Bool
  | none, none => true
  | some a, some b =>
    match a, b with
    | Json.null, Json.null => true
    | Json.bool x, Json.bool y => x == y
    | Json.num x, Json.num y => x == y
    | Json.str x, Json.str y => x == y
    | _, _ => false
  | _, _ => false

structure AggState where
  results : List Json
  completedNodes : List (Option Json)

def AggState.empty : AggState := ⟨[], []⟩

/-- The `setCompletedNodes` updater: add the node only if not present. -/
def seenStep (ns : List (Option Json)) (v : Option Json) : List (Option Json) :=
  if ns.any fun w => jsSameValueZero w v then ns else ns ++ [v]

/-- Ingest one successfully parsed record (`setResults` + `setCompletedNodes`). -/
def ingest (st : AggState) (j : Json) : AggState :=
  ⟨st.results ++ [j], seenStep st.completedNodes (nodeField j)⟩

/-- Process one candidate line: trim, skip if empty, try `JSON.parse`; a parse
failure is non-fatal (the record is simply not ingested).  This is the body of
the `for` loop in `processStream`, and also exactly its end-of-stream flush. -/
def lineStep (st : AggState) (line : List Char) : AggState :=
  let t := trimChars line
  if t = [] then st
  else
    match Json.parse t with
    | some j => ingest st j
    | none => st

/-- The record a candidate line contributes, if any. -/
def lineRecord (line : List Char) : Option Json :=
  let t := trimChars line
  if t = [] then none else Json.parse t

/-- Full per-stream state: decoder state, trailing-line buffer, aggregator. -/
structure StreamState where
  dec : DecState
  buffer : List Char
  agg : AggState

def initStream : StreamState := ⟨dec0, [], AggState.empty⟩

/-- One iteration of the `while (true)` read loop in `processStream`: decode
the chunk, append to the buffer, split on newlines, keep the last segment as
the new buffer, process every other segment. -/
def chunkStep (st : StreamState) (bytes : List Nat) : StreamState :=
  let p := decodeChunk st.dec bytes
  let s := st.buffer ++ p.2
  let parts := splitNl s
  ⟨p.1, parts.getLastD [], parts.dropLast.foldl lineStep st.agg⟩

/-- How the response body behaves after its chunks: the next `read()`
resolves done, or rejects. -/
inductive BodyEnd where
  | eof
  | readError (msg : String)

/-- A readable response body: the chunks `reader.read()` delivers, then how
the stream ends. -/
structure Body where
  chunks : List (List Nat)
  ending : BodyEnd

/-- Model of `processStream(response)`: a `none` body models a missing
`response.body.getReader()` (throws).  Returns the aggregator state reached
(React setter updates that already ran stay applied) and the error thrown, if
any.  On normal end of stream the remaining buffer is flushed exactly once
through the same trim/parse/emit logic. -/
def processStream (body : Option Body) : AggState × Option String :=
  match body with
  | none => (AggState.empty, some "No response body reader available")
  | some b =>
    let st := b.chunks.foldl chunkStep initStream
    match b.ending with
    | BodyEnd.eof => (lineStep st.agg st.buffer, none)
    | BodyEnd.readError msg => (st.agg, some msg)

/-! ## The orchestrator (`processClaim`, `processFile`, `reset`)

`ClaimUi` is the observable hook state plus instrumentation: `procTrace`
records every value written by `setIsProcessing` in order, `toast` the last
notification (`true` = success), `streamEntered` whether the response body was
handed to `processStream`. -/

inductive FetchOutcome where
  | netError (msg : String)
  | response (status : Nat) (bodyText : String) (body : Option Body)

/-- Fetch `response.ok`: status in the inclusive range 200–299. -/
def respOk : FetchOutcome → Bool
  | FetchOutcome.netError _ => false
  | FetchOutcome.response status _ _ => 200 ≤ status && status ≤ 299

structure ClaimUi where
  agg : AggState
  isProcessing : Bool
  procTrace : List Bool
  toast : Option (Bool × String)
  streamEntered : Bool

def setIsProcessing (st : ClaimUi) (b : Bool) : ClaimUi :=
  { st with isProcessing := b, procTrace := st.procTrace ++ [b] }

/-- Model of `reset()`: clear results and completed nodes, mark idle. -/
def resetClaim (st : ClaimUi) : ClaimUi :=
  setIsProcessing { st with agg := AggState.empty } false

/-- The message of the error thrown on a non-2xx response. -/
def errMsgHttp (status : Nat) (errText : String) : String :=
  s!"HTTP error! status: {status} - {errText}"

/-- Shared body of `processClaim` / `processFile`: reset, mark processing,
fetch, raise on non-2xx (after reading the body text), otherwise stream; any
thrown error is caught and surfaced as an error toast; `finally` marks idle. -/
def runSubmission (st0 : ClaimUi) (successMsg : String) (o : FetchOutcome) : ClaimUi :=
  let st1 := { setIsProcessing (resetClaim st0) true with
               toast := none, streamEntered := false }
  let st2 :=
    match o with
    | FetchOutcome.netError msg =>
      { st1 with toast := some (false, s!"Connection Error: {msg}") }
    | FetchOutcome.response status bodyText body =>
      if 200 ≤ status && status ≤ 299 then
        let p := processStream body
        let st' := { st1 with agg := p.1, streamEntered := true }
        match p.2 with
        | none => { st' with toast := some (true, successMsg) }
        | some m => { st' with toast := some (false, s!"Connection Error: {m}") }
      else
        { st1 with toast := some (false, s!"Connection Error: {errMsgHttp status bodyText}") }
  setIsProcessing st2 false

/-- Model of `processClaim(claimText)` (the request body does not influence the modelled
observable state; the response is abstracted as a `FetchOutcome`). -/
def processClaim (st0 : ClaimUi) (o : FetchOutcome) : ClaimUi :=
  runSubmission st0 "Claim processed successfully!" o

/-- Model of `processFile(file)` — identical control flow, multipart body, its own
success message. -/
def processFile (st0 : ClaimUi) (o : FetchOutcome) : ClaimUi :=
  runSubmission st0 "File processed successfully!" o

/-! ## The chat accumulator (`ClaimChatBox.handleSend`)

Message contents are `List Char`.  `handleSend` returns the new state, the
list of assistant-turn contents published after each chunk (the progressive
renders), and whether a request was issued at all.  The HTTP request body
(`claim_data` built from prior results) does not affect any observable chat
state and is abstracted into the `FetchOutcome`. -/

inductive Role where
  | user
  | assistant
deriving DecidableEq

structure ChatMsg where
  id : Nat
  role : Role
  content : List Char

structure ChatState where
  messages : List ChatMsg
  input : List Char
  isLoading : Bool

/-- The fixed mid-failure replacement content. -/
def apologyText : List Char :=
  "Sorry, I encountered an error processing your question. Please try again.".toList

/-- The `setMessages(prev => prev.map(...))` content update for the open
assistant turn. -/
def chatUpdate (msgs : List ChatMsg) (aId : Nat) (content : List Char) : List ChatMsg :=
  msgs.map fun m => if m.id = aId then { m with content := content } else m

/-- The chat read loop: decode each chunk (`stream: true`), append to the
accumulator, publish the accumulated value.  Returns the messages, the
published contents in order, and whether the stream ended without a read
error. -/
def chatLoop (aId : Nat) (msgs : List ChatMsg) (ds : DecState) (acc : List Char) :
    List (List Nat) → BodyEnd → List ChatMsg × List (List Char) × Bool
  | [], BodyEnd.eof => (msgs, [], true)
  | [], BodyEnd.readError _ => (msgs, [], false)
  | bs :: rest, e =>
    let p := decodeChunk ds bs
    let acc' := acc ++ p.2
    let r := chatLoop aId (chatUpdate msgs aId acc') p.1 acc' rest e
    (r.1, acc' :: r.2.1, r.2.2)

/-- Model of `handleSend()`: guard, append the user turn and an empty assistant turn,
fetch; non-2xx throws a fixed message; a missing reader silently skips the
loop; the catch overwrites the open turn with `apologyText`; `finally` clears
`isLoading`. -/
def handleSend (st : ChatState) (now : Nat) (o : FetchOutcome) :
    ChatState × List (List Char) × Bool :=
  if trimChars st.input = [] ∨ st.isLoading then (st, [], false)
  else
    let aId := now + 1
    let msgs0 := st.messages ++ [⟨now, Role.user, st.input⟩, ⟨aId, Role.assistant, []⟩]
    let step : List ChatMsg × List (List Char) × Bool :=
      match o with
      | FetchOutcome.netError _ => (msgs0, [], true)
      | FetchOutcome.response status _ body =>
        if 200 ≤ status && status ≤ 299 then
          match body with
          | none => (msgs0, [], false)
          | some b =>
            let r := chatLoop aId msgs0 dec0 [] b.chunks b.ending
            (r.1, r.2.1, !r.2.2)
        else (msgs0, [], true)
    let msgs2 := if step.2.2 then chatUpdate step.1 aId apologyText else step.1
    (⟨msgs2, [], false⟩, step.2.1, true)

/-- Content of the message with the given id (first match, as `find` would). -/
def contentOf (msgs : List ChatMsg) (i : Nat) : Option (List Char) :=
  (msgs.find? fun m => m.id == i).map (·.content)

/-! ## A character-level view of the line-framed decoder

`chunkStep` buffers a chunk and splits on newlines; processing one character
at a time with `charStep` is equivalent (given the invariant that the carried
buffer contains no newline), which reduces chunk-boundary invariance to
associativity of list folds. -/

/-- Process a single decoded character: a newline completes the buffered line,
anything else extends the buffer. -/
def charStep (ba : List Char × AggState) (c : Char) : List Char × AggState :=
  if c = '\n' then ([], lineStep ba.2 ba.1) else (ba.1 ++ [c], ba.2)

/-- Process a single byte: decoder step, then the emitted characters. -/
def byteStep (st : StreamState) (b : Nat) : StreamState :=
  let p := pushByte st.dec b
  let q := p.2.foldl charStep (st.buffer, st.agg)
  ⟨p.1, q.1, q.2⟩

theorem splitNl_ne_nil (s : List Char) : splitNl s ≠ [] := by
  induction s with
  | nil => simp [splitNl]
  | cons c cs ih =>
    simp only [splitNl]
    split
    · simp
    · cases h : splitNl cs with
      | nil => simp
      | cons p ps => simp

theorem splitNl_no_nl (s : List Char) (h : '\n' ∉ s) : splitNl s = [s] := by
  induction s with
  | nil => rfl
  | cons c cs ih =>
    simp only [List.mem_cons, not_or] at h
    have hc : ¬c = '\n' := fun hx => h.1 hx.symm
    simp only [splitNl]
    rw [if_neg hc, ih h.2]

theorem splitNl_append_nl (buf t : List Char) (h : '\n' ∉ buf) :
    splitNl (buf ++ '\n' :: t) = buf :: splitNl t := by
  induction buf with
  | nil => simp [splitNl]
  | cons c cs ih =>
    simp only [List.mem_cons, not_or] at h
    have hc : ¬c = '\n' := fun hx => h.1 hx.symm
    simp only [List.cons_append, splitNl, List.append_eq]
    rw [if_neg hc, ih h.2]

theorem getLastD_irrel {α : Type} (l : List α) (d d' : α) (h : l ≠ []) :
    l.getLastD d = l.getLastD d' := by
  cases l with
  | nil => exact absurd rfl h
  | cons a t => simp only [List.getLastD_cons]

theorem charStep_nl (ba : List Char × AggState) :
    charStep ba '\n' = ([], lineStep ba.2 ba.1) := by
  simp [charStep]

theorem charStep_other (ba : List Char × AggState) (c : Char) (hc : ¬c = '\n') :
    charStep ba c = (ba.1 ++ [c], ba.2) := by
  simp [charStep, hc]

/-- The split-and-fold computation of `chunkStep` equals a character fold. -/
theorem splitNl_foldl_charStep (s : List Char) :
    ∀ (buf : List Char) (agg : AggState), '\n' ∉ buf →
    ((splitNl (buf ++ s)).getLastD [],
      (splitNl (buf ++ s)).dropLast.foldl lineStep agg) =
    s.foldl charStep (buf, agg) := by
  induction s with
  | nil =>
    intro buf agg h
    rw [List.append_nil, splitNl_no_nl buf h]
    simp
  | cons c cs ih =>
    intro buf agg h
    by_cases hc : c = '\n'
    · subst hc
      rw [splitNl_append_nl buf cs h]
      have hne := splitNl_ne_nil cs
      cases hsp : splitNl cs with
      | nil => exact absurd hsp hne
      | cons p ps =>
        have h2 := ih [] (lineStep agg buf) (by simp)
        rw [List.nil_append, hsp] at h2
        rw [List.foldl_cons, charStep_nl, ← h2]
        simp [List.getLastD_cons]
    · have hbuf : '\n' ∉ buf ++ [c] := by
        simp only [List.mem_append, List.mem_singleton, not_or]
        exact ⟨h, fun hx => hc hx.symm⟩
      have h2 := ih (buf ++ [c]) agg hbuf
      rw [List.foldl_cons, charStep_other _ c hc, ← h2, List.append_cons]

/-- Lemma: `chunkStep` expressed through the character fold. -/
theorem chunkStep_eq (st : StreamState) (bytes : List Nat) (h : '\n' ∉ st.buffer) :
    chunkStep st bytes =
    ⟨(decodeChunk st.dec bytes).1,
      ((decodeChunk st.dec bytes).2.foldl charStep (st.buffer, st.agg)).1,
      ((decodeChunk st.dec bytes).2.foldl charStep (st.buffer, st.agg)).2⟩ := by
  have h2 := splitNl_foldl_charStep (decodeChunk st.dec bytes).2 st.buffer st.agg h
  simp only [chunkStep]
  rw [← h2]

theorem charStep_buffer_no_nl (c : Char) (x : List Char × AggState)
    (h : '\n' ∉ x.1) : '\n' ∉ (charStep x c).1 := by
  simp only [charStep]
  split
  · simp
  · next hc =>
    simp only [List.mem_append, List.mem_singleton, not_or]
    exact ⟨h, fun hx => hc hx.symm⟩

theorem foldl_charStep_buffer_no_nl (cs : List Char) :
    ∀ x : List Char × AggState, '\n' ∉ x.1 → '\n' ∉ (cs.foldl charStep x).1 := by
  induction cs with
  | nil => intro x h; exact h
  | cons c cs ih =>
    intro x h
    exact ih _ (charStep_buffer_no_nl c x h)

theorem chunkStep_buffer_no_nl (st : StreamState) (bytes : List Nat)
    (h : '\n' ∉ st.buffer) : '\n' ∉ (chunkStep st bytes).buffer := by
  rw [chunkStep_eq st bytes h]
  exact foldl_charStep_buffer_no_nl _ _ h

theorem decodeChunk_cons (st : DecState) (b : Nat) (bs : List Nat) :
    decodeChunk st (b :: bs) =
    ((decodeChunk (pushByte st b).1 bs).1,
      (pushByte st b).2 ++ (decodeChunk (pushByte st b).1 bs).2) := rfl

/-- Lemma: `chunkStep` is a fold of `byteStep` over the chunk's bytes. -/
theorem chunkStep_eq_byteFold (bytes : List Nat) :
    ∀ st : StreamState, '\n' ∉ st.buffer →
    chunkStep st bytes = bytes.foldl byteStep st := by
  induction bytes with
  | nil =>
    intro st h
    rw [chunkStep_eq st [] h]
    simp [decodeChunk]
  | cons b bs ih =>
    intro st h
    have hb : '\n' ∉ (byteStep st b).buffer :=
      foldl_charStep_buffer_no_nl _ _ h
    rw [List.foldl_cons, ← ih (byteStep st b) hb,
      chunkStep_eq st (b :: bs) h, chunkStep_eq (byteStep st b) bs hb]
    simp only [decodeChunk_cons, byteStep, List.foldl_append]

theorem byteFold_buffer_no_nl (bytes : List Nat) :
    ∀ st : StreamState, '\n' ∉ st.buffer → '\n' ∉ (bytes.foldl byteStep st).buffer := by
  induction bytes with
  | nil => intro st h; exact h
  | cons b bs ih =>
    intro st h
    exact ih _ (foldl_charStep_buffer_no_nl _ _ h)

/-- Feeding chunks one at a time equals feeding their concatenation. -/
theorem foldl_chunkStep_flatten (chunks : List (List Nat)) :
    ∀ st : StreamState, '\n' ∉ st.buffer →
    chunks.foldl chunkStep st = chunkStep st chunks.flatten := by
  induction chunks with
  | nil =>
    intro st h
    rw [List.flatten_nil, chunkStep_eq_byteFold [] st h]
    rfl
  | cons a rest ih =>
    intro st h
    have ha : '\n' ∉ (chunkStep st a).buffer := chunkStep_buffer_no_nl st a h
    rw [List.foldl_cons, ih (chunkStep st a) ha, List.flatten_cons,
      chunkStep_eq_byteFold rest.flatten _ ha, chunkStep_eq_byteFold a st h,
      ← List.foldl_append, ← chunkStep_eq_byteFold (a ++ rest.flatten) st h]

/-- C1: Chunk-split invariance of the line-framed decoder: for any JSON-lines
payload (indeed any byte sequence), splitting its bytes at arbitrary
boundaries — including mid multi-byte character and mid delimiter — and
feeding the chunks one at a time through `processStream` yields exactly the
same final state (in particular the same ordered sequence of appended
records) as feeding the whole payload as a single chunk. -/
theorem c1_chunk_split_invariance (chunks : List (List Nat)) :
    processStream (some ⟨chunks, BodyEnd.eof⟩) =
    processStream (some ⟨[chunks.flatten], BodyEnd.eof⟩) := by
  simp only [processStream]
  rw [foldl_chunkStep_flatten chunks initStream (by simp [initStream])]
  rfl

theorem dropLast_concat_getLastD {α : Type} (l : List α) :
    ∀ d : α, l ≠ [] → l.dropLast ++ [l.getLastD d] = l := by
  induction l with
  | nil => intro d h; exact absurd rfl h
  | cons a t ih =>
    intro d h
    cases t with
    | nil => rfl
    | cons b t' =>
      simp only [List.getLastD_cons]
      have h2 := ih a (by simp)
      rw [List.getLastD_cons] at h2
      show a :: ((b :: t').dropLast ++ [t'.getLastD b]) = a :: b :: t'
      rw [h2]

/-- A whole run over one payload chunk is the line fold over the split of the
decoded text (the end-of-stream flush handles the final segment). -/
theorem processStream_single (payload : List Nat) :
    (processStream (some ⟨[payload], BodyEnd.eof⟩)).1 =
    (splitNl (decodeChunk dec0 payload).2).foldl lineStep AggState.empty := by
  simp only [processStream, List.foldl_cons, List.foldl_nil, chunkStep, initStream,
    List.nil_append]
  have hne := splitNl_ne_nil (decodeChunk dec0 payload).2
  conv_rhs => rw [← dropLast_concat_getLastD (splitNl (decodeChunk dec0 payload).2) [] hne]
  rw [List.foldl_append]
  rfl

theorem lineStep_results (st : AggState) (l : List Char) :
    (lineStep st l).results = st.results ++ (lineRecord l).toList := by
  simp only [lineStep, lineRecord]
  split
  · simp
  · split <;> simp_all [ingest]

theorem foldl_lineStep_results (ls : List (List Char)) :
    ∀ st : AggState,
    (ls.foldl lineStep st).results = st.results ++ ls.filterMap lineRecord := by
  induction ls with
  | nil => intro st; simp
  | cons l t ih =>
    intro st
    rw [List.foldl_cons, ih (lineStep st l), lineStep_results]
    cases h : lineRecord l with
    | none => simp [List.filterMap_cons, h]
    | some j => simp [List.filterMap_cons, h]

/-- Join lines with the newline delimiter, without a trailing newline. -/
def joinLines : List (List Char) → List Char
  | [] => []
  | [l] => l
  | l :: l2 :: rest => l ++ '\n' :: joinLines (l2 :: rest)

theorem splitNl_joinLines (ls : List (List Char)) :
    ls ≠ [] → (∀ l ∈ ls, '\n' ∉ l) → splitNl (joinLines ls) = ls := by
  induction ls with
  | nil => intro h _; exact absurd rfl h
  | cons l rest ih =>
    intro _ hmem
    cases rest with
    | nil => exact splitNl_no_nl l (hmem l (by simp))
    | cons l2 rest' =>
      rw [show joinLines (l :: l2 :: rest') = l ++ '\n' :: joinLines (l2 :: rest') from rfl,
        splitNl_append_nl l _ (hmem l (by simp)),
        ih (by simp) (fun x hx => hmem x (by simp [hx]))]

theorem splitNl_cons_nl (cs : List Char) : splitNl ('\n' :: cs) = [] :: splitNl cs := by
  simp [splitNl]

theorem splitNl_cons_other (c : Char) (cs : List Char) (hc : ¬c = '\n') :
    splitNl (c :: cs) = (c :: (splitNl cs).headD []) :: (splitNl cs).tail := by
  have hne := splitNl_ne_nil cs
  cases hsp : splitNl cs with
  | nil => exact absurd hsp hne
  | cons p ps =>
    simp only [splitNl]
    rw [if_neg hc, hsp]
    rfl

theorem splitNl_concat_nl (s : List Char) :
    splitNl (s ++ ['\n']) = splitNl s ++ [[]] := by
  induction s with
  | nil => rfl
  | cons c cs ih =>
    by_cases hc : c = '\n'
    · subst hc
      rw [List.cons_append, splitNl_cons_nl, splitNl_cons_nl, ih, List.cons_append]
    · have hne := splitNl_ne_nil cs
      cases hsp : splitNl cs with
      | nil => exact absurd hsp hne
      | cons p ps =>
        rw [List.cons_append, splitNl_cons_other c _ hc, splitNl_cons_other c _ hc,
          ih, hsp]
        simp

theorem filterMap_eq_of_map_some {α β : Type} (f : α → Option β) (l : List α)
    (rs : List β) (h : l.map f = rs.map some) : l.filterMap f = rs := by
  induction l generalizing rs with
  | nil =>
    cases rs with
    | nil => rfl
    | cons r rt => simp at h
  | cons a t ih =>
    cases rs with
    | nil => simp at h
    | cons r rt =>
      simp only [List.map_cons, List.cons.injEq] at h
      rw [List.filterMap_cons, h.1, ih rt h.2]

/-- C2: Malformed-line isolation: a payload consisting of well-formed JSON
lines `g1`, one malformed line `bad` (non-blank after trimming, failing
`JSON.parse`) and well-formed lines `g2` — with or without a trailing
newline — yields exactly the records of the well-formed lines, in their
original relative order, and the decoder finishes without an error: the parse
failure is non-fatal and processing continues with the next line. -/
theorem c2_malformed_line_isolation
    (g1 g2 : List (List Char)) (bad : List Char) (rs1 rs2 : List Json)
    (payload : List Nat) (trailingNl : Bool)
    (hdec : (decodeChunk dec0 payload).2 =
      joinLines (g1 ++ bad :: g2) ++ (if trailingNl then ['\n'] else []))
    (hnl : ∀ l ∈ g1 ++ bad :: g2, '\n' ∉ l)
    (hg1 : g1.map lineRecord = rs1.map some)
    (hg2 : g2.map lineRecord = rs2.map some)
    (hbadNe : trimChars bad ≠ [])
    (hbadParse : Json.parse (trimChars bad) = none) :
    (processStream (some ⟨[payload], BodyEnd.eof⟩)).1.results = rs1 ++ rs2 ∧
    (processStream (some ⟨[payload], BodyEnd.eof⟩)).2 = none := by
  have hbadRec : lineRecord bad = none := by
    simp only [lineRecord]
    rw [if_neg hbadNe, hbadParse]
  have hEmp : lineRecord [] = none := rfl
  refine ⟨?_, rfl⟩
  rw [processStream_single, hdec]
  cases trailingNl
  · rw [if_neg Bool.false_ne_true, List.append_nil,
      splitNl_joinLines _ (by simp) hnl, foldl_lineStep_results]
    simp [List.filterMap_append, List.filterMap_cons, hbadRec,
      filterMap_eq_of_map_some _ _ _ hg1, filterMap_eq_of_map_some _ _ _ hg2,
      AggState.empty]
  · rw [if_pos rfl, splitNl_concat_nl, splitNl_joinLines _ (by simp) hnl,
      foldl_lineStep_results]
    simp [List.filterMap_append, List.filterMap_cons, hbadRec, hEmp,
      filterMap_eq_of_map_some _ _ _ hg1, filterMap_eq_of_map_some _ _ _ hg2,
      AggState.empty]

def wLineA : List Char := "\x7b\"node\":\"A\",\"data\":\x7b\x7d\x7d".toList

def wLineBad : List Char := "not json".toList

def wLineB : List Char := "\x7b\"node\":\"B\",\"data\":\x7b\x7d\x7d".toList

def wRecA : Json :=
  Json.obj [("node".toList, Json.str "A".toList), ("data".toList, Json.obj [])]

def wRecB : Json :=
  Json.obj [("node".toList, Json.str "B".toList), ("data".toList, Json.obj [])]

def wPayloadC2 : List Nat := utf8Encode (joinLines [wLineA, wLineBad, wLineB] ++ ['\n'])

theorem c2_witness :
    (processStream (some ⟨[wPayloadC2], BodyEnd.eof⟩)).1.results = [wRecA] ++ [wRecB] ∧
    (processStream (some ⟨[wPayloadC2], BodyEnd.eof⟩)).2 = none :=
  c2_malformed_line_isolation [wLineA] [wLineB] wLineBad [wRecA] [wRecB] wPayloadC2 true
    (by decide) (by decide) rfl rfl (by decide) rfl

/-- C3: Trailing-unterminated-line flush: a payload whose lines end without a
trailing newline still yields every record, in particular the final one, once
the stream ends — the remaining buffer goes exactly once through the same
trim/parse/emit logic — and an empty stream emits zero records. -/
theorem c3_trailing_flush
    (ls : List (List Char)) (rs : List Json) (payload : List Nat)
    (hne : ls ≠ [])
    (hnl : ∀ l ∈ ls, '\n' ∉ l)
    (hall : ls.map lineRecord = rs.map some)
    (hdec : (decodeChunk dec0 payload).2 = joinLines ls) :
    (processStream (some ⟨[payload], BodyEnd.eof⟩)).1.results = rs ∧
    (processStream (some ⟨([] : List (List Nat)), BodyEnd.eof⟩)).1.results = [] := by
  refine ⟨?_, rfl⟩
  rw [processStream_single, hdec, splitNl_joinLines ls hne hnl,
    foldl_lineStep_results, filterMap_eq_of_map_some _ _ _ hall]
  rfl

def wPayloadC3 : List Nat := utf8Encode (joinLines [wLineA, wLineB])

theorem c3_witness :
    (processStream (some ⟨[wPayloadC3], BodyEnd.eof⟩)).1.results = [wRecA, wRecB] ∧
    (processStream (some ⟨([] : List (List Nat)), BodyEnd.eof⟩)).1.results = [] :=
  c3_trailing_flush [wLineA, wLineB] [wRecA, wRecB] wPayloadC3
    (by decide) (by decide) rfl rfl

/-- C4: Stage dedup with record retention: ingesting two decoded records that
carry the same stage identifier appends both to `results` while
`completedNodes` contains that stage exactly once, keeping the first
arrival. -/
theorem c4_stage_dedup (r1 r2 : Json)
    (h : jsSameValueZero (nodeField r1) (nodeField r2) = true) :
    (ingest (ingest AggState.empty r1) r2).results = [r1, r2] ∧
    (ingest (ingest AggState.empty r1) r2).completedNodes = [nodeField r1] := by
  refine ⟨rfl, ?_⟩
  simp [ingest, AggState.empty, seenStep, h]

def wRecA2 : Json :=
  Json.obj [("node".toList, Json.str "A".toList),
            ("data".toList, Json.obj [("again".toList, Json.bool true)])]

theorem c4_witness :
    (ingest (ingest AggState.empty wRecA) wRecA2).results = [wRecA, wRecA2] ∧
    (ingest (ingest AggState.empty wRecA) wRecA2).completedNodes = [nodeField wRecA] :=
  c4_stage_dedup wRecA wRecA2 rfl

/-- The invariant tying `completedNodes` to `results`: it is the fold of
`seenStep` over the node fields (the sequence of SameValueZero-first
occurrences), and it holds no two entries the aggregator's membership test
would identify. -/
def AggInv (st : AggState) : Prop :=
  st.completedNodes = (st.results.map nodeField).foldl seenStep [] ∧
  List.Pairwise (fun a b => jsSameValueZero a b = false) st.completedNodes

theorem aggInv_ingest (st : AggState) (j : Json) (h : AggInv st) :
    AggInv (ingest st j) := by
  obtain ⟨h1, h2⟩ := h
  constructor
  · show seenStep st.completedNodes (nodeField j) =
      ((st.results ++ [j]).map nodeField).foldl seenStep []
    rw [List.map_append, List.foldl_append, ← h1]
    rfl
  · show List.Pairwise _ (seenStep st.completedNodes (nodeField j))
    simp only [seenStep]
    split
    · exact h2
    · next hany =>
      have hf : st.completedNodes.any
          (fun w => jsSameValueZero w (nodeField j)) = false :=
        Bool.eq_false_iff.mpr hany
      rw [List.pairwise_append]
      refine ⟨h2, List.pairwise_singleton _ _, ?_⟩
      intro a ha b hb
      rw [List.mem_singleton] at hb
      subst hb
      exact Bool.eq_false_iff.mpr (List.any_eq_false.mp hf a ha)

theorem aggInv_lineStep (st : AggState) (l : List Char) (h : AggInv st) :
    AggInv (lineStep st l) := by
  simp only [lineStep]
  split
  · exact h
  · split
    · exact aggInv_ingest _ _ h
    · exact h

/-- C9: At every observable point `completedNodes` has no duplicate entries
(no two the aggregator's SameValueZero membership test would identify) and
equals the sequence of first occurrences of the `node` field over the current
`results` list; every record-ingestion step — including the end-of-stream
flush, which runs through the same `lineStep` — preserves this, and `reset`
returns both to empty. -/
theorem c9_completed_nodes_invariant :
    (∀ (st : AggState) (j : Json), AggInv st → AggInv (ingest st j)) ∧
    (∀ (st : AggState) (l : List Char), AggInv st → AggInv (lineStep st l)) ∧
    AggInv AggState.empty ∧
    (∀ st : ClaimUi, (resetClaim st).agg = AggState.empty) :=
  ⟨aggInv_ingest, aggInv_lineStep, ⟨rfl, List.Pairwise.nil⟩, fun _ => rfl⟩

theorem c9_witness : AggInv (ingest AggState.empty wRecA) :=
  c9_completed_nodes_invariant.1 AggState.empty wRecA ⟨rfl, List.Pairwise.nil⟩

theorem runSubmission_trace (st : ClaimUi) (msg : String) (o : FetchOutcome) :
    (runSubmission st msg o).procTrace = st.procTrace ++ [false, true, false] ∧
    (runSubmission st msg o).isProcessing = false := by
  cases o with
  | netError m =>
    refine ⟨?_, rfl⟩
    simp [runSubmission, setIsProcessing, resetClaim]
  | response status bodyText body =>
    refine ⟨?_, rfl⟩
    simp only [runSubmission, setIsProcessing, resetClaim]
    split
    · split <;> simp
    · simp

/-- C5: Terminal-state guarantee: for every claim-submit and file-submit
request, on every exit path — successful drain, non-2xx response, network
failure, missing body reader, or a read error inside the decoder — the
`setIsProcessing` writes are exactly `false` (the entry reset), `true`
(activation), `false` (the unconditional `finally`): the mark-inactive step
runs exactly once on the exit path and the request never ends with
`isProcessing` stuck true. -/
theorem c5_terminal_state (st : ClaimUi) (o : FetchOutcome) :
    ((processClaim st o).procTrace = st.procTrace ++ [false, true, false] ∧
      (processClaim st o).isProcessing = false) ∧
    ((processFile st o).procTrace = st.procTrace ++ [false, true, false] ∧
      (processFile st o).isProcessing = false) :=
  ⟨runSubmission_trace st _ o, runSubmission_trace st _ o⟩

/-! ## Chat lemmas -/

/-- The running concatenations published after each chunk. -/
def prefixConcats (acc : List Char) : List (List Char) → List (List Char)
  | [] => []
  | c :: cs => (acc ++ c) :: prefixConcats (acc ++ c) cs

theorem chatUpdate_chatUpdate (msgs : List ChatMsg) (i : Nat) (c c' : List Char) :
    chatUpdate (chatUpdate msgs i c) i c' = chatUpdate msgs i c' := by
  induction msgs with
  | nil => rfl
  | cons m t ih =>
    simp only [chatUpdate] at ih ⊢
    simp only [List.map_cons]
    by_cases hm : m.id = i
    · simp [hm, ih]
    · simp [hm, ih]

theorem chatUpdate_fresh (msgs : List ChatMsg) (i : Nat) (v : List Char)
    (h : ∀ m ∈ msgs, m.id ≠ i) : chatUpdate msgs i v = msgs := by
  induction msgs with
  | nil => rfl
  | cons m t ih =>
    simp only [chatUpdate, List.map_cons]
    rw [if_neg (h m (by simp))]
    have := ih fun x hx => h x (List.mem_cons_of_mem m hx)
    simp only [chatUpdate] at this
    rw [this]

theorem contentOf_chatUpdate (msgs : List ChatMsg) (i : Nat) (s : List Char) :
    contentOf (chatUpdate msgs i s) i = (contentOf msgs i).map fun _ => s := by
  induction msgs with
  | nil => rfl
  | cons m t ih =>
    simp only [contentOf, chatUpdate, List.map_cons] at ih ⊢
    by_cases hm : m.id = i
    · simp [hm]
    · have hb : (m.id == i) = false := by simp [hm]
      rw [if_neg hm, List.find?_cons_of_neg _ (by simp [hm]),
        List.find?_cons_of_neg _ (by simp [hm])]
      exact ih

theorem contentOf_append_fresh (msgs rest : List ChatMsg) (i : Nat)
    (h : ∀ m ∈ msgs, m.id ≠ i) :
    contentOf (msgs ++ rest) i = contentOf rest i := by
  induction msgs with
  | nil => rfl
  | cons m t ih =>
    simp only [contentOf, List.cons_append] at ih ⊢
    rw [List.find?_cons_of_neg _ (by simp [h m (by simp)])]
    exact ih fun x hx => h x (List.mem_cons_of_mem m hx)

theorem contentOf_foldl_chatUpdate (i : Nat) (ts : List (List Char)) :
    ∀ (msgs : List ChatMsg) (v : List Char), contentOf msgs i = some v →
    contentOf (ts.foldl (fun ms t => chatUpdate ms i t) msgs) i =
      some (ts.getLastD v) := by
  induction ts with
  | nil =>
    intro msgs v h
    simpa using h
  | cons t ts ih =>
    intro msgs v h
    rw [List.foldl_cons]
    have h2 : contentOf (chatUpdate msgs i t) i = some t := by
      rw [contentOf_chatUpdate, h]
      rfl
    rw [ih _ _ h2, List.getLastD_cons]

theorem prefixConcats_getLastD (ts : List (List Char)) :
    ∀ acc : List Char, (prefixConcats acc ts).getLastD acc = acc ++ ts.flatten := by
  induction ts with
  | nil => intro acc; simp [prefixConcats]
  | cons t ts ih =>
    intro acc
    simp only [prefixConcats, List.getLastD_cons, List.flatten_cons]
    rw [ih (acc ++ t), List.append_assoc]

/-- The chat read loop on a clean-chunk stream ending normally: the published
contents are the running concatenations and the message list receives the
corresponding updates. -/
theorem chatLoop_clean (aId : Nat) :
    ∀ chunks : List (List Nat),
    (∀ c ∈ chunks, (decodeChunk dec0 c).1 = dec0) →
    ∀ (msgs : List ChatMsg) (acc : List Char),
    chatLoop aId msgs dec0 acc chunks BodyEnd.eof =
      ((prefixConcats acc (chunks.map fun c => (decodeChunk dec0 c).2)).foldl
          (fun ms t => chatUpdate ms aId t) msgs,
        prefixConcats acc (chunks.map fun c => (decodeChunk dec0 c).2),
        true) := by
  intro chunks
  induction chunks with
  | nil => intro _ msgs acc; rfl
  | cons c rest ih =>
    intro hclean msgs acc
    have hc : (decodeChunk dec0 c).1 = dec0 := hclean c (by simp)
    have hrest : ∀ x ∈ rest, (decodeChunk dec0 x).1 = dec0 := fun x hx =>
      hclean x (by simp [hx])
    simp only [chatLoop, List.map_cons, prefixConcats, List.foldl_cons]
    rw [hc, ih hrest]

/-- Applying a final content overwrite collapses all updates the loop made. -/
theorem chatUpdate_chatLoop (aId : Nat) :
    ∀ chunks : List (List Nat),
    ∀ (msgs : List ChatMsg) (ds : DecState) (acc : List Char) (e : BodyEnd)
      (v : List Char),
    chatUpdate (chatLoop aId msgs ds acc chunks e).1 aId v = chatUpdate msgs aId v := by
  intro chunks
  induction chunks with
  | nil =>
    intro msgs ds acc e v
    cases e <;> rfl
  | cons c rest ih =>
    intro msgs ds acc e v
    simp only [chatLoop]
    rw [ih, chatUpdate_chatUpdate]

theorem chatLoop_readError_flag (aId : Nat) (m : String) :
    ∀ chunks : List (List Nat),
    ∀ (msgs : List ChatMsg) (ds : DecState) (acc : List Char),
    (chatLoop aId msgs ds acc chunks (BodyEnd.readError m)).2.2 = false := by
  intro chunks
  induction chunks with
  | nil => intro msgs ds acc; rfl
  | cons c rest ih =>
    intro msgs ds acc
    simp only [chatLoop]
    exact ih _ _ _

/-- The two turns appended by `handleSend` before the request is issued. -/
def sendMsgs0 (st : ChatState) (now : Nat) : List ChatMsg :=
  st.messages ++ [⟨now, Role.user, st.input⟩, ⟨now + 1, Role.assistant, []⟩]

theorem chatUpdate_sendMsgs0 (st : ChatState) (now : Nat) (v : List Char)
    (hfresh : ∀ m ∈ st.messages, m.id ≠ now + 1) :
    chatUpdate (sendMsgs0 st now) (now + 1) v =
      st.messages ++ [⟨now, Role.user, st.input⟩, ⟨now + 1, Role.assistant, v⟩] := by
  simp only [sendMsgs0, chatUpdate, List.map_append]
  have h1 : st.messages.map
      (fun m => if m.id = now + 1 then { m with content := v } else m) = st.messages := by
    have := chatUpdate_fresh st.messages (now + 1) v hfresh
    simpa [chatUpdate] using this
  rw [h1]
  have hne : ¬ now = now + 1 := Nat.ne_of_lt (Nat.lt_succ_self now)
  simp [hne]

theorem contentOf_sendMsgs0 (st : ChatState) (now : Nat)
    (hfresh : ∀ m ∈ st.messages, m.id ≠ now + 1) :
    contentOf (sendMsgs0 st now) (now + 1) = some [] := by
  rw [sendMsgs0, contentOf_append_fresh _ _ _ hfresh]
  have hne : (now == now + 1) = false := by
    simp [Nat.ne_of_lt (Nat.lt_succ_self now)]
  simp [contentOf, List.find?, hne]

/-- C7: Chat progressive accumulation: for every sequence of chat-stream
chunks (each chunk decoding cleanly to text), after each chunk the open
assistant turn's content equals the concatenation of the chunks' texts so
far (the published contents are exactly the running concatenations), and on
stream end the final content is the concatenation of all chunk texts — no
line buffering or parsing is applied. -/
theorem c7_chat_progressive (st : ChatState) (now : Nat) (chunks : List (List Nat))
    (status : Nat) (bodyText : String)
    (hok : (200 ≤ status && status ≤ 299) = true)
    (hin : ¬trimChars st.input = [])
    (hload : st.isLoading = false)
    (hfresh : ∀ m ∈ st.messages, m.id ≠ now + 1)
    (hclean : ∀ c ∈ chunks, (decodeChunk dec0 c).1 = dec0) :
    (handleSend st now
        (FetchOutcome.response status bodyText (some ⟨chunks, BodyEnd.eof⟩))).2.1 =
      prefixConcats [] (chunks.map fun c => (decodeChunk dec0 c).2) ∧
    contentOf (handleSend st now
        (FetchOutcome.response status bodyText
          (some ⟨chunks, BodyEnd.eof⟩))).1.messages (now + 1) =
      some (chunks.map fun c => (decodeChunk dec0 c).2).flatten := by
  have hguard : ¬(trimChars st.input = [] ∨ st.isLoading = true) := by
    simp [hin, hload]
  have hcl := chatLoop_clean (now + 1) chunks hclean (sendMsgs0 st now) []
  simp only [sendMsgs0] at hcl
  have hc0 := contentOf_sendMsgs0 st now hfresh
  simp only [sendMsgs0] at hc0
  simp only [handleSend]
  rw [if_neg hguard, if_pos hok, hcl]
  refine ⟨rfl, ?_⟩
  show contentOf (List.foldl (fun ms t => chatUpdate ms (now + 1) t)
      (st.messages ++ [⟨now, Role.user, st.input⟩, ⟨now + 1, Role.assistant, []⟩])
      (prefixConcats [] (chunks.map fun c => (decodeChunk dec0 c).2))) (now + 1) =
    some (chunks.map fun c => (decodeChunk dec0 c).2).flatten
  rw [contentOf_foldl_chatUpdate _ _ _ _ hc0, prefixConcats_getLastD, List.nil_append]

def wChunkHel : List Nat := utf8Encode "Hel".toList

def wChunkLo : List Nat := utf8Encode "lo, ".toList

def wChunkWorld : List Nat := utf8Encode "world".toList

def wChatState : ChatState := ⟨[⟨1, Role.assistant, "Hello! How can I help?".toList⟩],
  "why?".toList, false⟩

theorem c7_witness :
    (handleSend wChatState 5 (FetchOutcome.response 200 ""
        (some ⟨[wChunkHel, wChunkLo, wChunkWorld], BodyEnd.eof⟩))).2.1 =
      ["Hel".toList, "Hello, ".toList, "Hello, world".toList] ∧
    contentOf (handleSend wChatState 5 (FetchOutcome.response 200 ""
        (some ⟨[wChunkHel, wChunkLo, wChunkWorld], BodyEnd.eof⟩))).1.messages 6 =
      some "Hello, world".toList := by
  have h := c7_chat_progressive wChatState 5 [wChunkHel, wChunkLo, wChunkWorld] 200 ""
    (by decide) (by decide) rfl (by decide) (by decide)
  exact ⟨h.1.trans (by decide), h.2.trans (by decide)⟩

/-- Whether `handleSend`'s try block throws for a given response. -/
def chatFails : FetchOutcome → Bool
  | FetchOutcome.netError _ => true
  | FetchOutcome.response status _ body =>
    if 200 ≤ status && status ≤ 299 then
      match body with
      | some b =>
        match b.ending with
        | BodyEnd.readError _ => true
        | BodyEnd.eof => false
      | none => false
    else true

/-- C8: Chat mid-stream failure recovery: for every chat-send request that
fails after dispatch (network failure, non-2xx, or a read error mid-stream),
the open assistant turn's content is replaced — overwritten, not discarded
with the turn — by the fixed apology message, the appended user turn and all
prior turns survive, and `isLoading` returns to false so the conversation
remains usable. -/
theorem c8_chat_failure_recovery (st : ChatState) (now : Nat) (o : FetchOutcome)
    (hin : ¬trimChars st.input = []) (hload : st.isLoading = false)
    (hfresh : ∀ m ∈ st.messages, m.id ≠ now + 1)
    (hfail : chatFails o = true) :
    (handleSend st now o).1.messages =
      st.messages ++ [⟨now, Role.user, st.input⟩, ⟨now + 1, Role.assistant, apologyText⟩] ∧
    (handleSend st now o).1.isLoading = false := by
  have hguard : ¬(trimChars st.input = [] ∨ st.isLoading = true) := by
    simp [hin, hload]
  have hupd := chatUpdate_sendMsgs0 st now apologyText hfresh
  simp only [sendMsgs0] at hupd
  constructor
  · cases o with
    | netError m =>
      simp only [handleSend]
      rw [if_neg hguard]
      exact hupd
    | response status bodyText body =>
      simp only [handleSend]
      rw [if_neg hguard]
      by_cases hok : (200 ≤ status && status ≤ 299) = true
      · cases body with
        | none =>
          exfalso
          simp [chatFails, hok] at hfail
        | some b =>
          cases b with
          | mk chunks ending =>
            cases ending with
            | eof =>
              exfalso
              simp [chatFails, hok] at hfail
            | readError m =>
              rw [if_pos hok]
              dsimp only
              have hflag := chatLoop_readError_flag (now + 1) m chunks
                (st.messages ++ [⟨now, Role.user, st.input⟩,
                  ⟨now + 1, Role.assistant, []⟩]) dec0 []
              rw [hflag, if_pos (show (!false) = true from rfl)]
              have hcoll := chatUpdate_chatLoop (now + 1) chunks
                (st.messages ++ [⟨now, Role.user, st.input⟩,
                  ⟨now + 1, Role.assistant, []⟩]) dec0 [] (BodyEnd.readError m)
                apologyText
              rw [hcoll]
              exact hupd
      · rw [if_neg hok]
        exact hupd
  · simp only [handleSend]
    rw [if_neg hguard]

theorem c8_witness :
    (handleSend wChatState 5 (FetchOutcome.response 200 ""
        (some ⟨[wChunkHel], BodyEnd.readError "network dropped"⟩))).1.messages =
      wChatState.messages ++ [⟨5, Role.user, wChatState.input⟩,
        ⟨6, Role.assistant, apologyText⟩] ∧
    (handleSend wChatState 5 (FetchOutcome.response 200 ""
        (some ⟨[wChunkHel], BodyEnd.readError "network dropped"⟩))).1.isLoading = false :=
  c8_chat_failure_recovery wChatState 5 _ (by decide) rfl (by decide) rfl

/-- C10: A chat send invoked with empty or whitespace-only input, or while a
chat request is already in flight (`isLoading` true), is a complete no-op: no
message is appended, no request is issued, and all chat state is unchanged. -/
theorem c10_chat_guard_noop (st : ChatState) (now : Nat) (o : FetchOutcome)
    (h : trimChars st.input = [] ∨ st.isLoading = true) :
    handleSend st now o = (st, [], false) := by
  simp only [handleSend]
  rw [if_pos h]

theorem c10_witness :
    handleSend ⟨[], " \t ".toList, false⟩ 5 (FetchOutcome.netError "x") =
      (⟨[], " \t ".toList, false⟩, [], false) :=
  c10_chat_guard_noop ⟨[], " \t ".toList, false⟩ 5 (FetchOutcome.netError "x")
    (Or.inl (by decide))

/-- Substring test: whether `pat` occurs contiguously in the text. -/
def containsSeq (pat : List Char) : List Char → Bool
  | [] => pat.isEmpty
  | c :: rest => pat.isPrefixOf (c :: rest) || containsSeq pat rest

/-- C6 counterexample: for the chat-send kind the claim fails.  On a non-2xx
response (status 500, body text "boom") the only user-visible error surface —
the open assistant turn — is the fixed apology text, which contains neither
the status nor the body text: the response status/text is not captured for
the error surface. -/
theorem c6_counterexample :
    contentOf (handleSend ⟨[], "hi".toList, false⟩ 5
        (FetchOutcome.response 500 "boom" none)).1.messages 6 = some apologyText ∧
    containsSeq "500".toList apologyText = false ∧
    containsSeq "boom".toList apologyText = false := by
  refine ⟨by decide, by decide, by decide⟩

/-- C6 (amended): for claim-submit and file-submit, a non-2xx HTTP response
fails the request with the response status and body text captured in the
surfaced error message, and the response body is never handed to the
streaming decoder; for chat-send, a non-2xx response also fails the request
directly and no chunk is delivered or accumulated, but the surfaced message
is the fixed apology text rather than one capturing the status/text. -/
theorem c6_non2xx_failure (status : Nat) (bodyText : String) (body : Option Body)
    (hnok : ¬(200 ≤ status && status ≤ 299) = true)
    (stc : ClaimUi) (stm : ChatState) (now : Nat)
    (hin : ¬trimChars stm.input = []) (hload : stm.isLoading = false)
    (hfresh : ∀ m ∈ stm.messages, m.id ≠ now + 1) :
    (processClaim stc (FetchOutcome.response status bodyText body)).toast =
      some (false, s!"Connection Error: {errMsgHttp status bodyText}") ∧
    (processClaim stc (FetchOutcome.response status bodyText body)).streamEntered = false ∧
    (processFile stc (FetchOutcome.response status bodyText body)).toast =
      some (false, s!"Connection Error: {errMsgHttp status bodyText}") ∧
    (processFile stc (FetchOutcome.response status bodyText body)).streamEntered = false ∧
    (handleSend stm now (FetchOutcome.response status bodyText body)).1.messages =
      stm.messages ++ [⟨now, Role.user, stm.input⟩,
        ⟨now + 1, Role.assistant, apologyText⟩] ∧
    (handleSend stm now (FetchOutcome.response status bodyText body)).2.1 = [] := by
  have hguard : ¬(trimChars stm.input = [] ∨ stm.isLoading = true) := by
    simp [hin, hload]
  have hupd := chatUpdate_sendMsgs0 stm now apologyText hfresh
  simp only [sendMsgs0] at hupd
  have hclaim : ∀ msg : String,
      (runSubmission stc msg (FetchOutcome.response status bodyText body)).toast =
        some (false, s!"Connection Error: {errMsgHttp status bodyText}") ∧
      (runSubmission stc msg
        (FetchOutcome.response status bodyText body)).streamEntered = false := by
    intro msg
    simp only [runSubmission, setIsProcessing, resetClaim]
    rw [if_neg hnok]
    exact ⟨rfl, rfl⟩
  refine ⟨(hclaim _).1, (hclaim _).2, (hclaim _).1, (hclaim _).2, ?_, ?_⟩
  · simp only [handleSend]
    rw [if_neg hguard, if_neg hnok]
    exact hupd
  · simp only [handleSend]
    rw [if_neg hguard, if_neg hnok]

theorem c6_witness :
    (processClaim ⟨AggState.empty, false, [], none, false⟩
        (FetchOutcome.response 500 "boom" none)).toast =
      some (false, "Connection Error: HTTP error! status: 500 - boom") ∧
    (processClaim ⟨AggState.empty, false, [], none, false⟩
        (FetchOutcome.response 500 "boom" none)).streamEntered = false ∧
    (processFile ⟨AggState.empty, false, [], none, false⟩
        (FetchOutcome.response 500 "boom" none)).toast =
      some (false, "Connection Error: HTTP error! status: 500 - boom") ∧
    (processFile ⟨AggState.empty, false, [], none, false⟩
        (FetchOutcome.response 500 "boom" none)).streamEntered = false ∧
    (handleSend ⟨[], "hi".toList, false⟩ 5
        (FetchOutcome.response 500 "boom" none)).1.messages =
      [⟨5, Role.user, "hi".toList⟩, ⟨6, Role.assistant, apologyText⟩] ∧
    (handleSend ⟨[], "hi".toList, false⟩ 5
        (FetchOutcome.response 500 "boom" none)).2.1 = [] :=
  c6_non2xx_failure 500 "boom" none (by decide)
    ⟨AggState.empty, false, [], none, false⟩ ⟨[], "hi".toList, false⟩ 5
    (by decide) rfl (by decide)
